import Mathlib

set_option maxHeartbeats 1000000

/-!
Verification development for the aiorpc server (`src/aiorpc/server.py`).

The development shallowly embeds:
* the msgpack-style wire codec (incremental feed/decode), modelled from the
  spec since the msgpack library and the `aiorpc.message` module are not part
  of the source tree;
* the server's registry construction (`Server._get_app_funcs`), method
  resolution (`Server._get_exec_func`, `Server._get_control_command`,
  `Server._ctrl_cmd_reflection`), parameter binding (`Server._execute_quest`),
  the per-message dispatch unit (`Server.process`) and the per-connection
  read/classify loop (`Server.handler`).

Byte strings (Python `bytes` and, where the code round-trips them through
`.decode()`, `str`) are modelled as `List Nat` of byte values; `.decode()` is
the identity at this level since every name involved is ASCII.  Python
exception stringification (`list(map(str, sys.exc_info()[:2]))`) is abstracted
to a fixed kind/message byte string per modelled exception class.
-/

/-- Modelled from the spec: the schema-less value universe of the wire format
(`nil`, booleans, unsigned integers, byte strings, arrays, maps), which is also
the universe of decoded Python values the server manipulates. -/
inductive Value where
  | nil
  | bool (b : Bool)
  | int (n : Nat)
  | str (s : List Nat)
  | arr (vs : List Value)
  | map (kvs : List (Value × Value))

/-- Modelled from the spec: the `aiorpc.message` module is not in the source
tree; the spec fixes only that the three type tags are distinct small
integers.  The msgpack-rpc conventional value is used for the request tag. -/
def TYPE_REQUEST : Nat := 0

/-- Modelled from the spec: response type tag (distinct small integer). -/
def TYPE_RESPONSE : Nat := 1

/-- Modelled from the spec: notification type tag (distinct small integer). -/
def TYPE_NOTIFICATION : Nat := 2

/-- Big-endian 4-byte length/integer field of the modelled wire format. -/
def len4 (n : Nat) : List Nat :=
  [n / 16777216 % 256, n / 65536 % 256, n / 256 % 256, n % 256]

/-- Read back a big-endian 4-byte field. -/
def read4 : List Nat → Nat
  | a :: b :: c :: d :: _ => ((a * 256 + b) * 256 + c) * 256 + d
  | _ => 0

mutual
/-- Modelled from the spec: `encode(Message) → bytes` is a pure function;
each value is emitted with a self-describing tag byte so that message
boundaries are recoverable from the byte stream alone. -/
def encV : Value → List Nat
  | .nil => [192]
  | .bool false => [194]
  | .bool true => [195]
  | .int n => 206 :: len4 n
  | .str s => 218 :: len4 s.length ++ s
  | .arr vs => 220 :: len4 vs.length ++ encVs vs
  | .map kvs => 222 :: len4 kvs.length ++ encKVs kvs

/-- Concatenated encoding of a sequence of values (also the byte stream of a
sequence of wire messages). -/
def encVs : List Value → List Nat
  | [] => []
  | v :: vs => encV v ++ encVs vs

/-- Concatenated encoding of the key/value pairs of a map. -/
def encKVs : List (Value × Value) → List Nat
  | [] => []
  | (k, v) :: kvs => encV k ++ encV v ++ encKVs kvs
end

mutual
/-- Well-formedness of a value w.r.t. the wire format: integers and all
length fields fit the 4-byte field, string payloads are bytes. -/
def wfV : Value → Bool
  | .nil => true
  | .bool _ => true
  | .int n => decide (n < 4294967296)
  | .str s => decide (s.length < 4294967296) && s.all (fun b => decide (b < 256))
  | .arr vs => decide (vs.length < 4294967296) && wfVs vs
  | .map kvs => decide (kvs.length < 4294967296) && wfKVs kvs

/-- Well-formedness of a list of values. -/
def wfVs : List Value → Bool
  | [] => true
  | v :: vs => wfV v && wfVs vs

/-- Well-formedness of a list of key/value pairs. -/
def wfKVs : List (Value × Value) → Bool
  | [] => true
  | (k, v) :: kvs => wfV k && wfV v && wfKVs kvs
end

/-- Result of one incremental decode attempt: a complete value together with
the unconsumed remainder, a request for more bytes, or a hard format error. -/
inductive PRes (α : Type) where
  | done (v : α) (rest : List Nat)
  | more
  | fail

/-- Interleave the key/value pairs of a map into a flat value sequence
(the order in which they sit on the wire). -/
def flattenKVs : List (Value × Value) → List Value
  | [] => []
  | (k, v) :: kvs => k :: v :: flattenKVs kvs

/-- Group a flat value sequence back into consecutive key/value pairs. -/
def pairUp : List Value → List (Value × Value)
  | k :: v :: rest => (k, v) :: pairUp rest
  | _ => []

mutual
/-- Modelled from the spec: fuelled incremental decoder.  `decodeNext`
produces a fully-formed value as soon as enough bytes are buffered and
reports `.more` on a partial tail, `.fail` on an unknown tag byte. -/
def parseF : Nat → List Nat → PRes Value
  | 0, _ => .more
  | _ + 1, [] => .more
  | _ + 1, 192 :: rest => .done .nil rest
  | _ + 1, 194 :: rest => .done (.bool false) rest
  | _ + 1, 195 :: rest => .done (.bool true) rest
  | _ + 1, 206 :: rest =>
    if 4 ≤ rest.length then .done (.int (read4 (rest.take 4))) (rest.drop 4) else .more
  | _ + 1, 218 :: rest =>
    if 4 ≤ rest.length then
      if read4 (rest.take 4) ≤ (rest.drop 4).length then
        .done (.str ((rest.drop 4).take (read4 (rest.take 4))))
          ((rest.drop 4).drop (read4 (rest.take 4)))
      else .more
    else .more
  | f + 1, 220 :: rest =>
    if 4 ≤ rest.length then
      match parseSeqF f (read4 (rest.take 4)) (rest.drop 4) with
      | .done vs r2 => .done (.arr vs) r2
      | .more => .more
      | .fail => .fail
    else .more
  | f + 1, 222 :: rest =>
    if 4 ≤ rest.length then
      match parseSeqF f (2 * read4 (rest.take 4)) (rest.drop 4) with
      | .done vs r2 => .done (.map (pairUp vs)) r2
      | .more => .more
      | .fail => .fail
    else .more
  | _ + 1, _ :: _ => .fail

/-- Decode a counted sequence of values (array/map payload). -/
def parseSeqF : Nat → Nat → List Nat → PRes (List Value)
  | _, 0, b => .done [] b
  | 0, _ + 1, _ => .more
  | f + 1, n + 1, b =>
    match parseF f b with
    | .done v r =>
      match parseSeqF f n r with
      | .done vs r2 => .done (v :: vs) r2
      | .more => .more
      | .fail => .fail
    | .more => .more
    | .fail => .fail
end

mutual
/-- Decoder fuel sufficient for one value. -/
def fuelV : Value → Nat
  | .nil => 1
  | .bool _ => 1
  | .int _ => 1
  | .str _ => 1
  | .arr vs => 1 + fuelVs vs
  | .map kvs => 1 + fuelKVs kvs

/-- Decoder fuel sufficient for a value sequence. -/
def fuelVs : List Value → Nat
  | [] => 0
  | v :: vs => 1 + fuelV v + fuelVs vs

/-- Decoder fuel sufficient for a key/value pair sequence. -/
def fuelKVs : List (Value × Value) → Nat
  | [] => 0
  | (k, v) :: kvs => 2 + fuelV k + fuelV v + fuelKVs kvs
end

/-- One decode attempt on a buffer, with fuel derived from the buffer size
(sufficient for any value whose encoding is a prefix of the buffer). -/
def parseTop (b : List Nat) : PRes Value :=
  parseF (2 * b.length + 1) b

/-- Fuelled drain loop: repeatedly decode complete values from the front of
the buffer, keeping the partial trailing bytes. -/
def drainF : Nat → List Nat → List Value × List Nat
  | 0, b => ([], b)
  | f + 1, b =>
    match parseTop b with
    | .done v r =>
      let p := drainF f r
      (v :: p.1, p.2)
    | _ => ([], b)

/-- Modelled from the spec: the unpacker's `for msg in unpacker` drain after a
feed — every fully-buffered message is yielded, partial trailing bytes are
retained.  Each successful decode consumes at least one byte, so fuel
`b.length + 1` never runs out. -/
def drain (b : List Nat) : List Value × List Nat :=
  drainF (b.length + 1) b

/-- Modelled from the spec: `feed(bytes)` appends the chunk to the retained
buffer, then all fully-buffered messages are decoded and appended to the
output sequence. -/
def feedStep (st : List Value × List Nat) (chunk : List Nat) : List Value × List Nat :=
  let d := drain (st.2 ++ chunk)
  (st.1 ++ d.1, d.2)

/-- Feed a sequence of chunks into a fresh unpacker and collect the decoded
messages together with the final retained buffer. -/
def feedAll (chunks : List (List Nat)) : List Value × List Nat :=
  chunks.foldl feedStep ([], [])

/-- Specification of a drained buffer in terms of the message sequence that
produced the byte stream: the maximal run of fully-contained messages plus
the leftover bytes. -/
def splitStream : List Value → List Nat → List Value × List Nat
  | [], p => ([], p)
  | m :: ms, p =>
    if encV m <+: p then
      let r := splitStream ms (p.drop (encV m).length)
      (m :: r.1, r.2)
    else ([], p)

/- ===================  server-side model  =================== -/

/-- ASCII bytes of "ctx". -/
def bCtx : List Nat := [99, 116, 120]

/-- ASCII bytes of "context". -/
def bContext : List Nat := [99, 111, 110, 116, 101, 120, 116]

/-- ASCII bytes of "reflection". -/
def bReflection : List Nat := [114, 101, 102, 108, 101, 99, 116, 105, 111, 110]

/-- ASCII bytes of "methods". -/
def bMethods : List Nat := [109, 101, 116, 104, 111, 100, 115]

/-- ASCII bytes of "name". -/
def bName : List Nat := [110, 97, 109, 101]

/-- ASCII bytes of "default". -/
def bDefault : List Nat := [100, 101, 102, 97, 117, 108, 116]

/-- ASCII bytes of "KeyError". -/
def bKeyError : List Nat := [75, 101, 121, 69, 114, 114, 111, 114]

/-- ASCII bytes of "AttributeError". -/
def bAttributeError : List Nat := [65, 116, 116, 114, 105, 98, 117, 116, 101, 69, 114, 114, 111, 114]

/-- ASCII bytes of "TypeError". -/
def bTypeError : List Nat := [84, 121, 112, 101, 69, 114, 114, 111, 114]

/-- Python exceptions surfacing in the modelled paths.  `appErr` stands for an
arbitrary exception raised by application handler code, carrying the
stringified kind and message. -/
inductive PyErr where
  | keyError
  | attributeError
  | typeError
  | appErr (kind msg : List Nat)

/-- Stringified exception kind (`str(sys.exc_info()[0])`, abstracted to the
class name's bytes). -/
def PyErr.kindStr : PyErr → List Nat
  | .keyError => bKeyError
  | .attributeError => bAttributeError
  | .typeError => bTypeError
  | .appErr k _ => k

/-- Stringified exception message (`str(sys.exc_info()[1])`). -/
def PyErr.msgStr : PyErr → List Nat
  | .appErr _ m => m
  | _ => []

/-- Outcome of calling a handler: a plain value, or a coroutine object whose
awaiting yields the given outcome (`asyncio.iscoroutine(result)` true). -/
inductive PyResult where
  | value (v : Value)
  | coro (r : Except PyErr Value)

/-- The argument shape `Server._execute_quest` invokes a handler with: an
optional context accessor passed as first positional argument, positional
arguments, and keyword arguments. -/
structure CallArgs where
  ctxArg : Option (List Nat → Value)
  pos : List Value
  kw : List (List Nat × Value)

/-- A Python callable as the dispatcher sees it: Python-level argument
binding (arity/keyword checking, defaults) is folded into the callable and
surfaces as an `Except.error`. -/
def PyFunc : Type := CallArgs → Except PyErr PyResult

/-- One declared parameter as produced by `inspect.signature`: its name and
optional default value. -/
structure ParamDef where
  name : List Nat
  default : Option Value

/-- The `FuncDef` namedtuple: `FuncDef(func, params, with_context)`.
`params` is `None` for the reflection control command's wrapper. -/
structure FuncDef where
  func : PyFunc
  params : Option (List ParamDef)
  with_context : Bool

/-- An application method visible to `dir(app)`: its declared signature and
its behaviour. -/
structure AppMethod where
  sig : List ParamDef
  impl : PyFunc

/-- An attribute of the application object: a callable member or a plain
(non-callable) value. -/
inductive AppAttr where
  | callable (m : AppMethod)
  | plain (v : Value)

/-- The application object, as the ordered association of attribute names
(as `dir(app)` yields them) to attributes. -/
def App : Type := List (List Nat × AppAttr)

/-- `with_context = len(funcsig.parameters) and (next(iter(funcsig.parameters))
in ('ctx', 'context'))` from `Server._get_app_funcs`. -/
def withContextOf (sig : List ParamDef) : Bool :=
  match sig with
  | [] => false
  | p :: _ => p.name == bCtx || p.name == bContext

/-- `Server._get_app_funcs`: iterate `dir(app)`, skip names starting with an
underscore and non-callable attributes, and record
`FuncDef(func, funcsig.parameters, with_context)` — note the full parameter
list, context parameter included, is stored. -/
def getAppFuncs : App → List (List Nat × FuncDef)
  | [] => []
  | (name, a) :: rest =>
    let tail := getAppFuncs rest
    if name.head? = some 95 then tail
    else
      match a with
      | .callable m => (name, ⟨m.impl, some m.sig, withContextOf m.sig⟩) :: tail
      | .plain _ => tail

/-- The server state the dispatch path reads: the immutable registry
`self._app_funcs`. -/
structure Server where
  appFuncs : List (List Nat × FuncDef)

/-- Server construction: `self._app_funcs = self._get_app_funcs(self._app)`. -/
def mkServer (app : App) : Server :=
  ⟨getAppFuncs app⟩

/-- Python `dict` lookup on an association list built by successive
insertions: a later binding of the same key overwrites an earlier one. -/
def dictGet {α : Type} (l : List (List Nat × α)) (k : List Nat) : Option α :=
  match l with
  | [] => none
  | p :: rest =>
    match dictGet rest k with
    | some v => some v
    | none => if p.1 = k then some p.2 else none

/-- `k.startswith(b'__') and k.endswith(b'__')`: the reserved context-key
convention of `Server._execute_quest`. -/
def dunder (k : List Nat) : Bool :=
  List.isPrefixOf [95, 95] k && List.isSuffixOf [95, 95] k

/-- The context subset of a keyed params mapping: entries whose key both
starts and ends with a double underscore. -/
def ctxOf (kvs : List (List Nat × Value)) : List (List Nat × Value) :=
  kvs.filter fun p => dunder p.1

/-- The arguments subset: entries whose key does not start or does not end
with a double underscore (`not k.startswith(b'__') or not k.endswith(b'__')`). -/
def argsOf (kvs : List (List Nat × Value)) : List (List Nat × Value) :=
  kvs.filter fun p => !List.isPrefixOf [95, 95] p.1 || !List.isSuffixOf [95, 95] p.1

/-- `ctx_getter = lambda k: ctx.get(k, writer.get_extra_info(k))`: look the
key up in the context subset, falling back to the connection's ambient
metadata accessor. -/
def ctxGetter (extra : List Nat → Value) (kvs : List (List Nat × Value)) :
    List Nat → Value :=
  fun k => (dictGet (ctxOf kvs) k).getD (extra k)

/-- Decode the keys of a params mapping: every key must be a byte string,
otherwise `k.startswith` raises `AttributeError`. -/
def strKeys : List (Value × Value) → Option (List (List Nat × Value))
  | [] => some []
  | (Value.str k, v) :: rest => (strKeys rest).map fun l => (k, v) :: l
  | _ => none

/-- One parameter descriptor of `Server._ctrl_cmd_reflection`: the bare name
when the parameter has no default, `{'name': ..., 'default': ...}` otherwise. -/
def descriptorOf (p : ParamDef) : Value :=
  match p.default with
  | none => .str p.name
  | some d => .map [(.str bName, .str p.name), (.str bDefault, d)]

/-- The value computed by the reflection wrapper:
`{'methods': {name: [descriptor, ...]}}` over the full stored parameter list
of every registered function. -/
def reflectionValue (S : Server) : Value :=
  .map [(.str bMethods,
    .map (S.appFuncs.map fun nf =>
      (.str nf.1, .arr ((nf.2.params.getD []).map descriptorOf))))]

/-- The `wrap` closure of `Server._ctrl_cmd_reflection`: a zero-parameter
callable returning the reflection value. -/
def wrapImpl (S : Server) : PyFunc := fun c =>
  match c.ctxArg, c.pos, c.kw with
  | none, [], [] => .ok (.value (reflectionValue S))
  | _, _, _ => .error .typeError

/-- `Server._ctrl_cmd_reflection`: `FuncDef(wrap, None, False)`. -/
def reflectionFuncDef (S : Server) : FuncDef :=
  ⟨wrapImpl S, none, false⟩

/-- `Server._get_control_command`: strip the sentinel byte, then
`getattr(self, '_ctrl_cmd_{}'.format(method))` — only `_ctrl_cmd_reflection`
exists, any other name raises `AttributeError`. -/
def getControlCommand (S : Server) (mb : List Nat) : Except PyErr FuncDef :=
  if mb.drop 1 = bReflection then .ok (reflectionFuncDef S)
  else .error .attributeError

/-- `Server._get_exec_func`: control commands for a leading NUL byte,
otherwise registry lookup (`KeyError` when absent); a non-bytes method makes
`msg.method.startswith` raise `AttributeError`. -/
def getExecFunc (S : Server) (method : Value) : Except PyErr FuncDef :=
  match method with
  | .str mb =>
    if mb.head? = some 0 then getControlCommand S mb
    else
      match dictGet S.appFuncs mb with
      | some fd => .ok fd
      | none => .error .keyError
  | _ => .error .attributeError

/-- `Server._execute_quest`: resolve the function, then bind parameters by
the dynamic shape of `msg.params` (positional list, keyed mapping, absent, or
bare scalar), injecting the context accessor as first positional argument
when `with_context` is set. -/
def executeQuest (S : Server) (extra : List Nat → Value) (method params : Value) :
    Except PyErr PyResult :=
  match getExecFunc S method with
  | .error e => .error e
  | .ok fd =>
    if fd.with_context then
      match params with
      | .arr vs => fd.func ⟨some extra, vs, []⟩
      | .map kvs =>
        match strKeys kvs with
        | none => .error .attributeError
        | some skvs => fd.func ⟨some (ctxGetter extra skvs), [], argsOf skvs⟩
      | .nil => fd.func ⟨some extra, [], []⟩
      | v => fd.func ⟨some extra, [v], []⟩
    else
      match params with
      | .arr vs => fd.func ⟨none, vs, []⟩
      | .map kvs =>
        match strKeys kvs with
        | none => .error .attributeError
        | some skvs => fd.func ⟨none, [], skvs⟩
      | .nil => fd.func ⟨none, [], []⟩
      | v => fd.func ⟨none, [v], []⟩

/-- `error = list(map(str, sys.exc_info()[:2]))`: the stringified
two-element error pair carried in a Response. -/
def errPair (e : PyErr) : Value :=
  .arr [.str e.kindStr, .str e.msgStr]

/-- The content of the local variable `result` in `Server.process` after the
try block: a packable value, or the still-unawaited coroutine object left
behind when `yield from result` raised. -/
inductive Slot where
  | val (v : Value)
  | coroObj

/-- The `(error, result)` pair `Server.process` holds after its try/except
block: the handler ran to a value, returned a coroutine that was awaited, or
raised — in the last coroutine case the `result` variable keeps the coroutine
object because the failed `yield from` never assigned it. -/
def questOutcome (S : Server) (extra : List Nat → Value) (method params : Value) :
    Value × Slot :=
  match executeQuest S extra method params with
  | .error e => (errPair e, .val .nil)
  | .ok (.value v) => (.nil, .val v)
  | .ok (.coro (.ok v)) => (.nil, .val v)
  | .ok (.coro (.error e)) => (errPair e, .coroObj)

/-- A decoded inbound message after `Server.handler` classified it:
`message.Request(*msg)` (type tag dropped) or `message.Notification(*msg)`. -/
inductive Msg where
  | request (mid method params : Value)
  | notification (method params : Value)

/-- `Server.process`: run the dispatch unit; for a Request, pack and write
`[TYPE_RESPONSE, msg.mid, error, result]` — `msgpack.packb` raises
`TypeError` when `result` is a leftover coroutine object, and that exception
escapes the dispatch unit (`Except.error`), so nothing is written.  For a
Notification nothing is ever written. -/
def process (S : Server) (extra : List Nat → Value) :
    Msg → Except PyErr (List (List Nat))
  | .request mid method params =>
    let o := questOutcome S extra method params
    match o.2 with
    | .val v => .ok [encV (.arr [.int TYPE_RESPONSE, mid, o.1, v])]
    | .coroObj => .error .typeError
  | .notification method params =>
    let _ := questOutcome S extra method params
    .ok []

/-- The classification step of `Server.handler`'s message loop: the decoded
value must be a list, its head selects Request (arity 4) or Notification
(arity 3); anything else raises and is reported as `none`. -/
def classify (v : Value) : Option Msg :=
  match v with
  | .arr (t :: rest) =>
    match t with
    | .int n =>
      if n = TYPE_REQUEST then
        match rest with
        | [mid, method, params] => some (.request mid method params)
        | _ => none
      else if n = TYPE_NOTIFICATION then
        match rest with
        | [method, params] => some (.notification method params)
        | _ => none
      else none
    | _ => none
  | _ => none

/-- The read/decode loop of `Server.handler` at the decoded-value level: each
well-shaped message spawns a dispatch unit (collected in arrival order); the
first failing classification raises, the bare `except` catches it, the loop
stops and the connection is closed (`true` = closed by an error, remaining
values never dispatched). -/
def handlerLoop : List Value → List Msg × Bool
  | [] => ([], false)
  | v :: rest =>
    match classify v with
    | some m =>
      let r := handlerLoop rest
      (m :: r.1, r.2)
    | none => ([], true)

/-- A decoded value that is well-formed at the framing level but rejected by
the classification step: a tagged array whose arity does not match its tag,
or whose tag is not the Request or Notification tag. -/
def malformedShape (v : Value) : Prop :=
  ∃ t rest, v = .arr (t :: rest) ∧
    ((t = .int TYPE_REQUEST ∧ rest.length ≠ 3) ∨
     (t = .int TYPE_NOTIFICATION ∧ rest.length ≠ 2) ∨
     (∀ n : Nat, t = .int n → n ≠ TYPE_REQUEST ∧ n ≠ TYPE_NOTIFICATION))

/-- Bytes a dispatch task manages to write: its response writes if it
completes, nothing if an exception escapes it. -/
def taskWrites : Except PyErr (List (List Nat)) → List (List Nat)
  | .ok ws => ws
  | .error _ => []

/-- Concurrent dispatch on one connection: one independent task per decoded
message, spawned in arrival order; `sched` is the order in which the
scheduler runs the tasks to completion, and the connection's outbound bytes
are their writes in that completion order. -/
def dispatchAll (S : Server) (extra : List Nat → Value) (msgs : List Msg)
    (sched : List Nat) : List (List Nat) :=
  (sched.map fun i => taskWrites ((msgs.map (process S extra)).getD i (.ok []))).flatten

/-- SPEC (amended C5): the reflection control command returns
`{methods: m}` where `m` maps every registered operation name to the ordered
descriptors of its complete declared parameter list — each descriptor the
bare parameter name when the parameter has no default and `{name, default}`
otherwise; the context parameter of a `needsContext` handler is included. -/
def specReflectionValue (funcs : List (List Nat × FuncDef)) : Value :=
  .map [(.str bMethods,
    .map (funcs.map fun nf =>
      (.str nf.1, .arr ((nf.2.params.getD []).map fun p =>
        match p.default with
        | none => .str p.name
        | some d => .map [(.str bName, .str p.name), (.str bDefault, d)]))))]

/- ===================  concrete instances for witnesses  =================== -/

/-- Ambient connection metadata accessor (`writer.get_extra_info`) used in
concrete instances. -/
def exExtra : List Nat → Value := fun _ => .nil

/-- A handler that returns a coroutine which raises `RuntimeError` when
awaited. -/
def coroRaiseImpl : PyFunc := fun _ =>
  .ok (.coro (.error (.appErr [82, 117, 110, 116, 105, 109, 101, 69, 114, 114, 111, 114]
    [98, 111, 111, 109])))

/-- A handler that immediately returns the byte string "pong". -/
def okImpl : PyFunc := fun _ => .ok (.value (.str [112, 111, 110, 103]))

/-- Application exposing `bad` (coroutine that raises on await) and `good`
(plain success). -/
def app9 : App :=
  [([98, 97, 100], .callable ⟨[], coroRaiseImpl⟩),
   ([103, 111, 111, 100], .callable ⟨[], okImpl⟩)]

/-- Two concurrent Requests on one connection: id 1 → `bad`, id 2 → `good`. -/
def msgs9 : List Msg :=
  [.request (.int 1) (.str [98, 97, 100]) .nil,
   .request (.int 2) (.str [103, 111, 111, 100]) .nil]

/-- A handler implementation that ignores its arguments. -/
def impl5 : PyFunc := fun _ => .ok (.value .nil)

/-- Application exposing one method `f(ctx, a)` — `needsContext` holds and
both declared parameters are stored. -/
def app5 : App :=
  [([102], .callable ⟨[⟨bCtx, none⟩, ⟨[97], none⟩], impl5⟩)]

/-- Application exposing one method `h(ctx, x)` used to exercise keyed-params
context partitioning. -/
def app6 : App :=
  [([104], .callable ⟨[⟨bCtx, none⟩, ⟨[120], none⟩], impl5⟩)]

/-- The `FuncDef` the registry stores for `h` in `app6`. -/
def fd6 : FuncDef :=
  ⟨impl5, some [⟨bCtx, none⟩, ⟨[120], none⟩], true⟩

/-- Keyed params `{b'__who__': 5, b'x': 3}` as decoded from the wire. -/
def kvs6 : List (Value × Value) :=
  [(.str [95, 95, 119, 104, 111, 95, 95], .int 5), (.str [120], .int 3)]

/-- The decoded-key form of `kvs6`. -/
def skvs6 : List (List Nat × Value) :=
  [([95, 95, 119, 104, 111, 95, 95], .int 5), ([120], .int 3)]

/-- Concrete message sequence for the streaming witness. -/
def msC8 : List Value :=
  [.arr [.int 1, .str [104, 105]], .nil, .int 300]

/-- A chunking of `encVs msC8` that splits several messages mid-encoding. -/
def chunksC8 : List (List Nat) :=
  [[220, 0, 0], [0, 2, 206, 0, 0, 0, 1, 218, 0, 0, 0], [2, 104, 105, 192, 206], [0, 0, 1, 44]]

theorem len4_len (n : Nat) : (len4 n).length = 4 := rfl

theorem read4_len4 {n : Nat} (hn : n < 4294967296) : read4 (len4 n) = n := by
  simp only [len4, read4]
  omega

theorem pref_len_lt {p t l : List Nat} (h : p ++ t = l) (hne : p ≠ l) :
    p.length < l.length := by
  cases t with
  | nil => simp at h; exact absurd h hne
  | cons a t => subst h; simp

theorem pref_comp {p q l : List Nat} (hp : p <+: l) (hq : q <+: l) :
    p <+: q ∨ q <+: p := by
  obtain ⟨a, ha⟩ := hp
  obtain ⟨b, hb⟩ := hq
  by_cases hle : p.length ≤ q.length
  · left
    refine ⟨q.drop p.length, ?_⟩
    have h1 : q.take p.length = p := by
      have : (q ++ b).take p.length = q.take p.length :=
        List.take_append_of_le_length hle
      rw [hb, ← ha, List.take_left] at this
      exact this.symm
    have h2 := List.take_append_drop p.length q
    rw [h1] at h2
    exact h2
  · right
    refine ⟨p.drop q.length, ?_⟩
    have h1 : p.take q.length = q := by
      have : (p ++ a).take q.length = p.take q.length :=
        List.take_append_of_le_length (by omega)
      rw [ha, ← hb, List.take_left] at this
      exact this.symm
    have h2 := List.take_append_drop q.length p
    rw [h1] at h2
    exact h2

theorem encV_len_pos (v : Value) : 0 < (encV v).length := by
  cases v with
  | nil => simp [encV]
  | bool b => cases b <;> simp [encV]
  | int n => simp [encV]
  | str s => simp [encV]
  | arr vs => simp [encV]
  | map kvs => simp [encV]

theorem encVs_append (a b : List Value) : encVs (a ++ b) = encVs a ++ encVs b := by
  induction a with
  | nil => simp [encVs]
  | cons v a ih => simp [encVs, ih]

theorem encKVs_eq_flatten (kvs : List (Value × Value)) :
    encKVs kvs = encVs (flattenKVs kvs) := by
  induction kvs with
  | nil => rfl
  | cons kv kvs ih =>
    obtain ⟨k, v⟩ := kv
    simp [encKVs, flattenKVs, encVs, ih]

theorem flattenKVs_length (kvs : List (Value × Value)) :
    (flattenKVs kvs).length = 2 * kvs.length := by
  induction kvs with
  | nil => rfl
  | cons kv kvs ih =>
    obtain ⟨k, v⟩ := kv
    simp [flattenKVs, ih]; omega

theorem pairUp_flattenKVs (kvs : List (Value × Value)) :
    pairUp (flattenKVs kvs) = kvs := by
  induction kvs with
  | nil => rfl
  | cons kv kvs ih =>
    obtain ⟨k, v⟩ := kv
    simp [flattenKVs, pairUp, ih]

theorem wfVs_flattenKVs {kvs : List (Value × Value)} (h : wfKVs kvs = true) :
    wfVs (flattenKVs kvs) = true := by
  induction kvs with
  | nil => rfl
  | cons kv kvs ih =>
    obtain ⟨k, v⟩ := kv
    simp [wfKVs] at h
    simp [flattenKVs, wfVs, h.1.1, h.1.2, ih h.2]

theorem wfVs_append {a b : List Value} :
    wfVs (a ++ b) = (wfVs a && wfVs b) := by
  induction a with
  | nil => simp [wfVs]
  | cons v a ih => simp [wfVs, ih, Bool.and_assoc]

theorem fuelV_pos (v : Value) : 1 ≤ fuelV v := by
  cases v <;> simp [fuelV]

theorem fuel_le_aux : ∀ N : Nat,
    (∀ v : Value, sizeOf v ≤ N → fuelV v + 1 ≤ 2 * (encV v).length) ∧
    (∀ vs : List Value, sizeOf vs ≤ N → fuelVs vs ≤ 2 * (encVs vs).length) ∧
    (∀ kvs : List (Value × Value), sizeOf kvs ≤ N →
      fuelKVs kvs ≤ 2 * (encKVs kvs).length) := by
  intro N
  induction N with
  | zero =>
    refine ⟨fun v h => ?_, fun vs h => ?_, fun kvs h => ?_⟩
    · cases v <;> simp at h
    · cases vs <;> first | rfl | simp at h
    · cases kvs <;> first | rfl | simp at h
  | succ N ih =>
    obtain ⟨ihV, ihVs, ihKVs⟩ := ih
    refine ⟨fun v h => ?_, fun vs h => ?_, fun kvs h => ?_⟩
    · cases v with
      | nil => simp [fuelV, encV]
      | bool b => cases b <;> simp [fuelV, encV]
      | int n => simp [fuelV, encV, len4]
      | str s => simp [fuelV, encV, len4]; try omega
      | arr vs =>
        have hs : sizeOf vs ≤ N := by simp at h; omega
        have := ihVs vs hs
        simp [fuelV, encV, len4]; try omega
      | map kvs =>
        have hs : sizeOf kvs ≤ N := by simp at h; omega
        have := ihKVs kvs hs
        simp [fuelV, encV, len4]; try omega
    · cases vs with
      | nil => simp [fuelVs, encVs]
      | cons v vs =>
        have h1 : sizeOf v ≤ N := by simp at h; omega
        have h2 : sizeOf vs ≤ N := by simp at h; omega
        have e1 := ihV v h1
        have e2 := ihVs vs h2
        simp [fuelVs, encVs]; try omega
    · cases kvs with
      | nil => simp [fuelKVs, encKVs]
      | cons kv kvs =>
        obtain ⟨k, v⟩ := kv
        have h1 : sizeOf k ≤ N := by simp at h; omega
        have h2 : sizeOf v ≤ N := by simp at h; omega
        have h3 : sizeOf kvs ≤ N := by simp at h; omega
        have e1 := ihV k h1
        have e2 := ihV v h2
        have e3 := ihKVs kvs h3
        simp [fuelKVs, encKVs]; try omega

theorem fuelV_le (v : Value) : fuelV v + 1 ≤ 2 * (encV v).length :=
  (fuel_le_aux (sizeOf v)).1 v (Nat.le_refl _)

theorem fuelVs_le (vs : List Value) : fuelVs vs ≤ 2 * (encVs vs).length :=
  (fuel_le_aux (sizeOf vs)).2.1 vs (Nat.le_refl _)

theorem parseF_nil (f : Nat) : parseF f [] = .more := by
  cases f <;> rfl

theorem parseSeqF_nil_more (f n : Nat) : parseSeqF f (n + 1) [] = .more := by
  cases f with
  | zero => rfl
  | succ f => simp [parseSeqF, parseF_nil]

theorem fuelKVs_eq (kvs : List (Value × Value)) :
    fuelKVs kvs = fuelVs (flattenKVs kvs) := by
  induction kvs with
  | nil => rfl
  | cons kv kvs ih =>
    obtain ⟨k, v⟩ := kv
    simp [fuelKVs, flattenKVs, fuelVs, ih]; omega

example (f : Nat) (rest : List Nat) :
    parseF (f + 1) (206 :: rest) =
      if 4 ≤ rest.length then .done (.int (read4 (rest.take 4))) (rest.drop 4) else .more := by
  simp [parseF]

example (f : Nat) (rest : List Nat) :
    parseF (f + 1) (192 :: rest) = .done .nil rest := by
  simp [parseF]

theorem parse_master : ∀ f : Nat,
    (∀ v r, wfV v = true → fuelV v ≤ f → parseF f (encV v ++ r) = .done v r) ∧
    (∀ v r, wfV v = true →
      parseF f (encV v ++ r) = .done v r ∨ parseF f (encV v ++ r) = .more) ∧
    (∀ vs r, wfVs vs = true → fuelVs vs ≤ f →
      parseSeqF f vs.length (encVs vs ++ r) = .done vs r) ∧
    (∀ vs r, wfVs vs = true →
      parseSeqF f vs.length (encVs vs ++ r) = .done vs r ∨
      parseSeqF f vs.length (encVs vs ++ r) = .more) := by
  intro f
  induction f with
  | zero =>
    refine ⟨fun v r hw hf => absurd hf (by have := fuelV_pos v; omega),
            fun v r hw => Or.inr rfl,
            fun vs r hw hf => ?_, fun vs r hw => ?_⟩
    · cases vs with
      | nil => simp [encVs, parseSeqF]
      | cons v vs => exact absurd hf (by simp [fuelVs])
    · cases vs with
      | nil => exact Or.inl (by simp [encVs, parseSeqF])
      | cons v vs => exact Or.inr (by simp [parseSeqF])
  | succ f ih =>
    obtain ⟨ihA, ihS, ihAs, ihSs⟩ := ih
    have hA : ∀ v r, wfV v = true → fuelV v ≤ f + 1 →
        parseF (f + 1) (encV v ++ r) = .done v r := by
      intro v r hw hf
      cases v with
      | nil => simp [encV, parseF]
      | bool b => cases b <;> simp [encV, parseF]
      | int n =>
        have hn : n < 4294967296 := by simpa [wfV] using hw
        have ht : (len4 n ++ r).take 4 = len4 n := List.take_left' (len4_len n)
        have hd : (len4 n ++ r).drop 4 = r := List.drop_left' (len4_len n)
        simp [encV, parseF, len4_len, Nat.le_add_right, ht, hd, read4_len4 hn]
      | str s =>
        have hs : s.length < 4294967296 := by
          simp [wfV, Bool.and_eq_true] at hw; exact hw.1
        have ht : (len4 s.length ++ (s ++ r)).take 4 = len4 s.length :=
          List.take_left' (len4_len _)
        have hd : (len4 s.length ++ (s ++ r)).drop 4 = s ++ r :=
          List.drop_left' (len4_len _)
        have hlen2 : s.length ≤ (s ++ r).length := by simp
        simp [encV, parseF, List.append_assoc, len4_len, Nat.le_add_right, ht, hd,
          read4_len4 hs, hlen2, List.take_left, List.drop_left]
      | arr vs =>
        have hw' : vs.length < 4294967296 ∧ wfVs vs = true := by
          simpa [wfV, Bool.and_eq_true] using hw
        have hf' : fuelVs vs ≤ f := by simp [fuelV] at hf; omega
        have ht : (len4 vs.length ++ (encVs vs ++ r)).take 4 = len4 vs.length :=
          List.take_left' (len4_len _)
        have hd : (len4 vs.length ++ (encVs vs ++ r)).drop 4 = encVs vs ++ r :=
          List.drop_left' (len4_len _)
        have hrec := ihAs vs r hw'.2 hf'
        simp [encV, parseF, List.append_assoc, len4_len, Nat.le_add_right, ht, hd,
          read4_len4 hw'.1, hrec]
      | map kvs =>
        have hw' : kvs.length < 4294967296 ∧ wfKVs kvs = true := by
          simpa [wfV, Bool.and_eq_true] using hw
        have hf' : fuelVs (flattenKVs kvs) ≤ f := by
          simp [fuelV] at hf; rw [← fuelKVs_eq]; omega
        have ht : (len4 kvs.length ++ (encKVs kvs ++ r)).take 4 = len4 kvs.length :=
          List.take_left' (len4_len _)
        have hd : (len4 kvs.length ++ (encKVs kvs ++ r)).drop 4 = encKVs kvs ++ r :=
          List.drop_left' (len4_len _)
        have hrec := ihAs (flattenKVs kvs) r (wfVs_flattenKVs hw'.2) hf'
        rw [flattenKVs_length, ← encKVs_eq_flatten] at hrec
        simp [encV, parseF, List.append_assoc, len4_len, Nat.le_add_right, ht, hd,
          read4_len4 hw'.1, hrec, pairUp_flattenKVs]
    have hS : ∀ v r, wfV v = true →
        parseF (f + 1) (encV v ++ r) = .done v r ∨
        parseF (f + 1) (encV v ++ r) = .more := by
      intro v r hw
      cases v with
      | nil => exact Or.inl (by simp [encV, parseF])
      | bool b => cases b <;> exact Or.inl (by simp [encV, parseF])
      | int n =>
        refine Or.inl ?_
        have hn : n < 4294967296 := by simpa [wfV] using hw
        have ht : (len4 n ++ r).take 4 = len4 n := List.take_left' (len4_len n)
        have hd : (len4 n ++ r).drop 4 = r := List.drop_left' (len4_len n)
        simp [encV, parseF, len4_len, Nat.le_add_right, ht, hd, read4_len4 hn]
      | str s =>
        refine Or.inl ?_
        have hs : s.length < 4294967296 := by
          simp [wfV, Bool.and_eq_true] at hw; exact hw.1
        have ht : (len4 s.length ++ (s ++ r)).take 4 = len4 s.length :=
          List.take_left' (len4_len _)
        have hd : (len4 s.length ++ (s ++ r)).drop 4 = s ++ r :=
          List.drop_left' (len4_len _)
        have hlen2 : s.length ≤ (s ++ r).length := by simp
        simp [encV, parseF, List.append_assoc, len4_len, Nat.le_add_right, ht, hd,
          read4_len4 hs, hlen2, List.take_left, List.drop_left]
      | arr vs =>
        have hw' : vs.length < 4294967296 ∧ wfVs vs = true := by
          simpa [wfV, Bool.and_eq_true] using hw
        have ht : (len4 vs.length ++ (encVs vs ++ r)).take 4 = len4 vs.length :=
          List.take_left' (len4_len _)
        have hd : (len4 vs.length ++ (encVs vs ++ r)).drop 4 = encVs vs ++ r :=
          List.drop_left' (len4_len _)
        rcases ihSs vs r hw'.2 with hrec | hrec
        · exact Or.inl (by
            simp [encV, parseF, List.append_assoc, len4_len, Nat.le_add_right, ht, hd,
          read4_len4 hw'.1, hrec])
        · exact Or.inr (by
            simp [encV, parseF, List.append_assoc, len4_len, Nat.le_add_right, ht, hd,
          read4_len4 hw'.1, hrec])
      | map kvs =>
        have hw' : kvs.length < 4294967296 ∧ wfKVs kvs = true := by
          simpa [wfV, Bool.and_eq_true] using hw
        have ht : (len4 kvs.length ++ (encKVs kvs ++ r)).take 4 = len4 kvs.length :=
          List.take_left' (len4_len _)
        have hd : (len4 kvs.length ++ (encKVs kvs ++ r)).drop 4 = encKVs kvs ++ r :=
          List.drop_left' (len4_len _)
        rcases ihSs (flattenKVs kvs) r (wfVs_flattenKVs hw'.2) with hrec | hrec
        · refine Or.inl ?_
          rw [flattenKVs_length, ← encKVs_eq_flatten] at hrec
          simp [encV, parseF, List.append_assoc, len4_len, Nat.le_add_right, ht, hd,
            read4_len4 hw'.1, hrec, pairUp_flattenKVs]
        · refine Or.inr ?_
          rw [flattenKVs_length, ← encKVs_eq_flatten] at hrec
          simp [encV, parseF, List.append_assoc, len4_len, Nat.le_add_right, ht, hd,
            read4_len4 hw'.1, hrec]
    refine ⟨hA, hS, fun vs r hw hf => ?_, fun vs r hw => ?_⟩
    · cases vs with
      | nil => simp [encVs, parseSeqF]
      | cons v vs =>
        have hw' : wfV v = true ∧ wfVs vs = true := by
          simpa [wfVs, Bool.and_eq_true] using hw
        have hf1 : fuelV v ≤ f := by simp [fuelVs] at hf; omega
        have hf2 : fuelVs vs ≤ f := by simp [fuelVs] at hf; omega
        have h1 := ihA v (encVs vs ++ r) hw'.1 hf1
        have h2 := ihAs vs r hw'.2 hf2
        simp [encVs, parseSeqF, List.append_assoc, h1, h2]
    · cases vs with
      | nil => exact Or.inl (by simp [encVs, parseSeqF])
      | cons v vs =>
        have hw' : wfV v = true ∧ wfVs vs = true := by
          simpa [wfVs, Bool.and_eq_true] using hw
        rcases ihS v (encVs vs ++ r) hw'.1 with h1 | h1
        · rcases ihSs vs r hw'.2 with h2 | h2
          · exact Or.inl (by simp [encVs, parseSeqF, List.append_assoc, h1, h2])
          · exact Or.inr (by simp [encVs, parseSeqF, List.append_assoc, h1, h2])
        · exact Or.inr (by simp [encVs, parseSeqF, List.append_assoc, h1])

theorem parseTop_enc {v : Value} (hw : wfV v = true) (r : List Nat) :
    parseTop (encV v ++ r) = .done v r := by
  have h1 := fuelV_le v
  exact (parse_master (2 * (encV v ++ r).length + 1)).1 v r hw
    (by simp [List.length_append]; omega)

theorem encVs_eq_nil {vs : List Value} (h : encVs vs = []) : vs = [] := by
  cases vs with
  | nil => rfl
  | cons v vs =>
    rcases v with _ | b | n | s | ws | kws
    case bool => cases b <;> simp [encVs, encV] at h
    all_goals simp [encVs, encV] at h

theorem parseF_tagNil (f : Nat) (q : List Nat) : parseF (f + 1) (192 :: q) = .done .nil q := rfl

theorem parseF_tagFalse (f : Nat) (q : List Nat) :
    parseF (f + 1) (194 :: q) = .done (.bool false) q := rfl

theorem parseF_tagTrue (f : Nat) (q : List Nat) :
    parseF (f + 1) (195 :: q) = .done (.bool true) q := rfl

theorem parseF_tagInt (f : Nat) (q : List Nat) :
    parseF (f + 1) (206 :: q) =
      (if 4 ≤ q.length then .done (.int (read4 (q.take 4))) (q.drop 4) else .more) := rfl

theorem parseF_tagStr (f : Nat) (q : List Nat) :
    parseF (f + 1) (218 :: q) =
      (if 4 ≤ q.length then
        if read4 (q.take 4) ≤ (q.drop 4).length then
          .done (.str ((q.drop 4).take (read4 (q.take 4)))) ((q.drop 4).drop (read4 (q.take 4)))
        else .more
      else .more) := rfl

theorem parseF_tagArr (f : Nat) (q : List Nat) :
    parseF (f + 1) (220 :: q) =
      (if 4 ≤ q.length then
        match parseSeqF f (read4 (q.take 4)) (q.drop 4) with
        | .done vs r2 => .done (.arr vs) r2
        | .more => .more
        | .fail => .fail
      else .more) := rfl

theorem parseF_tagMap (f : Nat) (q : List Nat) :
    parseF (f + 1) (222 :: q) =
      (if 4 ≤ q.length then
        match parseSeqF f (2 * read4 (q.take 4)) (q.drop 4) with
        | .done vs r2 => .done (.map (pairUp vs)) r2
        | .more => .more
        | .fail => .fail
      else .more) := rfl

theorem parseSeqF_zero (f : Nat) (b : List Nat) : parseSeqF f 0 b = .done [] b := by
  cases f <;> rfl

theorem parseSeqF_zeroFuel (n : Nat) (b : List Nat) : parseSeqF 0 (n + 1) b = .more := rfl

theorem parseSeqF_succ (f n : Nat) (b : List Nat) :
    parseSeqF (f + 1) (n + 1) b =
      (match parseF f b with
      | .done v r =>
        match parseSeqF f n r with
        | .done vs r2 => .done (v :: vs) r2
        | .more => .more
        | .fail => .fail
      | .more => .more
      | .fail => .fail) := rfl

theorem parse_pref : ∀ f : Nat,
    (∀ v p, wfV v = true → p <+: encV v → p ≠ encV v → parseF f p = .more) ∧
    (∀ vs p, wfVs vs = true → p <+: encVs vs → p ≠ encVs vs →
      parseSeqF f vs.length p = .more) := by
  intro f
  induction f with
  | zero =>
    constructor
    · intro v p _ _ _; rfl
    · intro vs p hw hp hne
      cases vs with
      | nil => exact absurd (List.prefix_nil.mp hp) hne
      | cons v vs => rw [List.length_cons, parseSeqF_zeroFuel]
  | succ f ih =>
    obtain ⟨ihV, ihVs⟩ := ih
    constructor
    · intro v p hw hp hne
      obtain ⟨t, ht⟩ := hp
      have htne : t ≠ [] := by
        intro h
        subst h
        simp at ht
        exact hne ht
      cases p with
      | nil => exact parseF_nil _
      | cons c q =>
        cases v with
        | nil =>
          have hc : c = 192 ∧ q ++ t = [] := by simpa [encV] using ht
          simp at hc
          exact absurd hc.2.2 htne
        | bool b =>
          cases b with
          | false =>
            have hc : c = 194 ∧ q ++ t = [] := by simpa [encV] using ht
            simp at hc
            exact absurd hc.2.2 htne
          | true =>
            have hc : c = 195 ∧ q ++ t = [] := by simpa [encV] using ht
            simp at hc
            exact absurd hc.2.2 htne
        | int n =>
          obtain ⟨hc1, hc2⟩ : c = 206 ∧ q ++ t = len4 n := by simpa [encV] using ht
          subst hc1
          have hlen : q.length + t.length = 4 := by
            have h1 := congrArg List.length hc2
            simpa [len4] using h1
          have htpos : 0 < t.length := List.length_pos.mpr htne
          have hq4 : ¬ 4 ≤ q.length := by omega
          rw [parseF_tagInt, if_neg hq4]
        | str s =>
          obtain ⟨hc1, hc2⟩ : c = 218 ∧ q ++ t = len4 s.length ++ s := by
            simpa [encV, List.append_assoc] using ht
          subst hc1
          have hs : s.length < 4294967296 := by
            simp [wfV, Bool.and_eq_true] at hw; exact hw.1
          by_cases hq4 : 4 ≤ q.length
          · have hqt : q.take 4 = len4 s.length := by
              have h1 : (q ++ t).take 4 = len4 s.length := by
                rw [hc2]; exact List.take_left' (len4_len _)
              rw [List.take_append_of_le_length hq4] at h1
              exact h1
            have hqd : q.drop 4 ++ t = s := by
              have h1 : (q ++ t).drop 4 = s := by
                rw [hc2]; exact List.drop_left' (len4_len _)
              rw [List.drop_append_of_le_length hq4] at h1
              exact h1
            have hlt : q.length - 4 + t.length = s.length := by
              have h1 := congrArg List.length hqd
              simpa using h1
            have htpos : 0 < t.length := List.length_pos.mpr htne
            have hnle : ¬ read4 (q.take 4) ≤ (q.drop 4).length := by
              rw [hqt, read4_len4 hs, List.length_drop]
              omega
            rw [parseF_tagStr, if_pos hq4, if_neg hnle]
          · rw [parseF_tagStr, if_neg hq4]
        | arr vs =>
          obtain ⟨hc1, hc2⟩ : c = 220 ∧ q ++ t = len4 vs.length ++ encVs vs := by
            simpa [encV, List.append_assoc] using ht
          subst hc1
          have hw2 : vs.length < 4294967296 ∧ wfVs vs = true := by
            simpa [wfV, Bool.and_eq_true] using hw
          by_cases hq4 : 4 ≤ q.length
          · have hqt : q.take 4 = len4 vs.length := by
              have h1 : (q ++ t).take 4 = len4 vs.length := by
                rw [hc2]; exact List.take_left' (len4_len _)
              rw [List.take_append_of_le_length hq4] at h1
              exact h1
            have hqd : q.drop 4 ++ t = encVs vs := by
              have h1 : (q ++ t).drop 4 = encVs vs := by
                rw [hc2]; exact List.drop_left' (len4_len _)
              rw [List.drop_append_of_le_length hq4] at h1
              exact h1
            have hne2 : q.drop 4 ≠ encVs vs := by
              intro h
              rw [h] at hqd
              have h1 : t = [] := by simpa using hqd
              exact htne h1
            have hrec := ihVs vs (q.drop 4) hw2.2 ⟨t, hqd⟩ hne2
            rw [parseF_tagArr, if_pos hq4, hqt, read4_len4 hw2.1, hrec]
          · rw [parseF_tagArr, if_neg hq4]
        | map kvs =>
          obtain ⟨hc1, hc2⟩ : c = 222 ∧ q ++ t = len4 kvs.length ++ encKVs kvs := by
            simpa [encV, List.append_assoc] using ht
          subst hc1
          have hw2 : kvs.length < 4294967296 ∧ wfKVs kvs = true := by
            simpa [wfV, Bool.and_eq_true] using hw
          by_cases hq4 : 4 ≤ q.length
          · have hqt : q.take 4 = len4 kvs.length := by
              have h1 : (q ++ t).take 4 = len4 kvs.length := by
                rw [hc2]; exact List.take_left' (len4_len _)
              rw [List.take_append_of_le_length hq4] at h1
              exact h1
            have hqd : q.drop 4 ++ t = encVs (flattenKVs kvs) := by
              have h1 : (q ++ t).drop 4 = encKVs kvs := by
                rw [hc2]; exact List.drop_left' (len4_len _)
              rw [List.drop_append_of_le_length hq4, encKVs_eq_flatten] at h1
              exact h1
            have hne2 : q.drop 4 ≠ encVs (flattenKVs kvs) := by
              intro h
              rw [h] at hqd
              have h1 : t = [] := by simpa using hqd
              exact htne h1
            have hrec := ihVs (flattenKVs kvs) (q.drop 4) (wfVs_flattenKVs hw2.2)
              ⟨t, hqd⟩ hne2
            rw [flattenKVs_length] at hrec
            rw [parseF_tagMap, if_pos hq4, hqt, read4_len4 hw2.1, hrec]
          · rw [parseF_tagMap, if_neg hq4]
    · intro vs p hw hp hne
      cases vs with
      | nil => exact absurd (List.prefix_nil.mp hp) hne
      | cons v vs =>
        have hw2 : wfV v = true ∧ wfVs vs = true := by
          simpa [wfVs, Bool.and_eq_true] using hw
        have hEnc : encVs (v :: vs) = encV v ++ encVs vs := rfl
        obtain ⟨t, ht⟩ := hp
        have htne : t ≠ [] := by
          intro h
          subst h
          simp at ht
          exact hne ht
        have hvpre : encV v <+: encVs (v :: vs) := ⟨encVs vs, hEnc.symm⟩
        rcases pref_comp ⟨t, ht⟩ hvpre with hcase | hcase
        · by_cases heq : p = encV v
          · subst heq
            have hvs : ∃ w ws, vs = w :: ws := by
              cases vs with
              | nil =>
                apply absurd ?_ htne
                have h1 : encV v ++ t = encV v ++ [] := by
                  simpa [encVs] using ht
                exact (List.append_right_inj _).mp h1
              | cons w ws => exact ⟨w, ws, rfl⟩
            obtain ⟨w, ws, rfl⟩ := hvs
            have hm := (parse_master f).2.1 v [] hw2.1
            rw [List.append_nil] at hm
            rcases hm with hdone | hmore
            · rw [List.length_cons, parseSeqF_succ, hdone]
              simp [parseSeqF_nil_more]
            · rw [List.length_cons, parseSeqF_succ, hmore]
          · have hrec := ihV v p hw2.1 hcase heq
            rw [List.length_cons, parseSeqF_succ, hrec]
        · obtain ⟨p2, hp2⟩ := hcase
          subst hp2
          have hp2t : p2 ++ t = encVs vs := by
            have h1 : encV v ++ (p2 ++ t) = encV v ++ encVs vs := by
              simpa [List.append_assoc, hEnc] using ht
            exact (List.append_right_inj _).mp h1
          have hne2 : p2 ≠ encVs vs := by
            intro h
            exact hne (by rw [hEnc, h])
          have hm := (parse_master f).2.1 v p2 hw2.1
          rcases hm with hdone | hmore
          · have hrec := ihVs vs p2 hw2.2 ⟨t, hp2t⟩ hne2
            rw [List.length_cons, parseSeqF_succ, hdone]
            simp [hrec]
          · rw [List.length_cons, parseSeqF_succ, hmore]

theorem parseTop_strict {v : Value} {p : List Nat} (hw : wfV v = true)
    (hp : p <+: encV v) (hne : p ≠ encV v) : parseTop p = .more :=
  (parse_pref _).1 v p hw hp hne

theorem drainF_succ (f : Nat) (b : List Nat) :
    drainF (f + 1) b =
      (match parseTop b with
      | .done v r =>
        let p := drainF f r
        (v :: p.1, p.2)
      | _ => ([], b)) := rfl

theorem parseTop_nil : parseTop [] = .more := rfl

theorem splitStream_cons (m : Value) (ms : List Value) (p : List Nat) :
    splitStream (m :: ms) p =
      (if encV m <+: p then
        let r := splitStream ms (p.drop (encV m).length)
        (m :: r.1, r.2)
      else ([], p)) := rfl

theorem drain_eq_split : ∀ (ms : List Value) (f : Nat) (p : List Nat),
    wfVs ms = true → p <+: encVs ms → p.length < f → drainF f p = splitStream ms p := by
  intro ms
  induction ms with
  | nil =>
    intro f p hw hp hf
    have hp0 : p = [] := List.prefix_nil.mp hp
    subst hp0
    cases f with
    | zero => omega
    | succ f =>
      rw [drainF_succ, parseTop_nil]
      rfl
  | cons m ms ih =>
    intro f p hw hp hf
    have hw2 : wfV m = true ∧ wfVs ms = true := by
      simpa [wfVs, Bool.and_eq_true] using hw
    have hEnc : encVs (m :: ms) = encV m ++ encVs ms := rfl
    by_cases hc : encV m <+: p
    · obtain ⟨q, hq⟩ := hc
      obtain ⟨t, ht⟩ := hp
      have hqt : q ++ t = encVs ms := by
        have h1 : encV m ++ (q ++ t) = encV m ++ encVs ms := by
          rw [← List.append_assoc, hq, ht, hEnc]
        exact (List.append_right_inj _).mp h1
      have hlen1 : 0 < (encV m).length := encV_len_pos m
      have hplen : 0 < p.length := by
        rw [← hq]
        simp
        omega
      cases f with
      | zero => omega
      | succ f =>
        rw [drainF_succ]
        have hdone : parseTop p = .done m q := by
          rw [← hq]
          exact parseTop_enc hw2.1 q
        rw [hdone]
        have hql : q.length < f := by
          have := congrArg List.length hq
          simp at this
          omega
        have hrec := ih f q hw2.2 ⟨t, hqt⟩ hql
        rw [splitStream_cons, if_pos ⟨q, hq⟩]
        have hdrop : p.drop (encV m).length = q := by
          rw [← hq]
          exact List.drop_left _ _
        rw [hdrop]
        simp [hrec]
    · have hpm : p <+: encV m := by
        rcases pref_comp hp (⟨encVs ms, hEnc.symm⟩ : encV m <+: encVs (m :: ms)) with h | h
        · exact h
        · exact absurd h hc
      have hne : p ≠ encV m := by
        intro h
        exact hc (h ▸ List.prefix_refl _)
      have hmore : parseTop p = .more := parseTop_strict hw2.1 hpm hne
      cases f with
      | zero => omega
      | succ f =>
        rw [drainF_succ, hmore, splitStream_cons, if_neg hc]

theorem split_full : ∀ ms : List Value, splitStream ms (encVs ms) = (ms, []) := by
  intro ms
  induction ms with
  | nil => rfl
  | cons m ms ih =>
    rw [splitStream_cons, if_pos ⟨encVs ms, rfl⟩]
    have hdrop : (encVs (m :: ms)).drop (encV m).length = encVs ms :=
      List.drop_left _ _
    rw [hdrop]
    simp [ih]

theorem splitStream_char : ∀ (ms : List Value) (p : List Nat), p <+: encVs ms →
    ∃ ms2, ms = (splitStream ms p).1 ++ ms2 ∧
      encVs (splitStream ms p).1 ++ (splitStream ms p).2 = p ∧
      ((splitStream ms p).2 = [] ∨
        ∃ m ms3, ms2 = m :: ms3 ∧ (splitStream ms p).2 <+: encV m ∧
          (splitStream ms p).2 ≠ encV m) := by
  intro ms
  induction ms with
  | nil =>
    intro p hp
    have hp0 : p = [] := List.prefix_nil.mp hp
    subst hp0
    exact ⟨[], rfl, rfl, Or.inl rfl⟩
  | cons m ms ih =>
    intro p hp
    have hEnc : encVs (m :: ms) = encV m ++ encVs ms := rfl
    by_cases hc : encV m <+: p
    · obtain ⟨q, hq⟩ := hc
      obtain ⟨t, ht⟩ := hp
      have hqt : q ++ t = encVs ms := by
        have h1 : encV m ++ (q ++ t) = encV m ++ encVs ms := by
          rw [← List.append_assoc, hq, ht, hEnc]
        exact (List.append_right_inj _).mp h1
      have hdrop : p.drop (encV m).length = q := by
        rw [← hq]
        exact List.drop_left _ _
      obtain ⟨ms2, hsplit, henc, hleft⟩ := ih q ⟨t, hqt⟩
      rw [splitStream_cons, if_pos ⟨q, hq⟩, hdrop]
      refine ⟨ms2, ?_, ?_, ?_⟩
      · simpa using congrArg (fun l => m :: l) hsplit
      · show encVs (m :: (splitStream ms q).1) ++ (splitStream ms q).2 = p
        rw [show encVs (m :: (splitStream ms q).1) =
          encV m ++ encVs (splitStream ms q).1 from rfl]
        rw [List.append_assoc, henc, hq]
      · exact hleft
    · have hpm : p <+: encV m := by
        rcases pref_comp hp (⟨encVs ms, hEnc.symm⟩ : encV m <+: encVs (m :: ms)) with h | h
        · exact h
        · exact absurd h hc
      have hne : p ≠ encV m := by
        intro h
        exact hc (h ▸ List.prefix_refl _)
      rw [splitStream_cons, if_neg hc]
      exact ⟨m :: ms, rfl, rfl, Or.inr ⟨m, ms, rfl, hpm, hne⟩⟩

theorem drain_nil : drain [] = ([], []) := rfl

theorem drain_stuck_strict {m : Value} {p : List Nat} (hw : wfV m = true)
    (hp : p <+: encV m) (hne : p ≠ encV m) : drain p = ([], p) := by
  unfold drain
  rw [drainF_succ, parseTop_strict hw hp hne]

theorem drain_eq {ms : List Value} {p : List Nat} (hw : wfVs ms = true)
    (hp : p <+: encVs ms) : drain p = splitStream ms p :=
  drain_eq_split ms (p.length + 1) p hw hp (Nat.lt_succ_self _)

theorem feed_inv : ∀ (chunks : List (List Nat)) (ms : List Value) (acc : List Value)
    (buf : List Nat), wfVs ms = true → buf ++ chunks.flatten = encVs ms →
    drain buf = ([], buf) →
    List.foldl feedStep (acc, buf) chunks = (acc ++ ms, []) := by
  intro chunks
  induction chunks with
  | nil =>
    intro ms acc buf hw hjoin hstuck
    simp only [List.flatten_nil, List.append_nil] at hjoin
    subst hjoin
    have hd : drain (encVs ms) = splitStream ms (encVs ms) := drain_eq hw (List.prefix_refl _)
    rw [split_full] at hd
    rw [hstuck] at hd
    rw [Prod.mk.injEq] at hd
    rw [List.foldl_nil, ← hd.1]
    simp [encVs]
  | cons c cs ih =>
    intro ms acc buf hw hjoin hstuck
    rw [List.foldl_cons]
    have hjoin1 : (buf ++ c) ++ cs.flatten = encVs ms := by
      rw [List.append_assoc]
      simpa [List.flatten_cons] using hjoin
    have hb0pre : (buf ++ c) <+: encVs ms := ⟨cs.flatten, hjoin1⟩
    have hd : drain (buf ++ c) = splitStream ms (buf ++ c) := drain_eq hw hb0pre
    obtain ⟨ms2, hsplit, henc, hleft⟩ := splitStream_char ms (buf ++ c) hb0pre
    have hstep : feedStep (acc, buf) c =
        (acc ++ (splitStream ms (buf ++ c)).1, (splitStream ms (buf ++ c)).2) := by
      simp only [feedStep, hd]
    rw [hstep]
    have hw2 : wfVs ms2 = true := by
      have hw3 := hw
      rw [hsplit, wfVs_append] at hw3
      simp at hw3
      exact hw3.2
    have hmseq : encVs ms = encVs (splitStream ms (buf ++ c)).1 ++ encVs ms2 := by
      conv_lhs => rw [hsplit]
      rw [encVs_append]
    have hjoin2 : (splitStream ms (buf ++ c)).2 ++ cs.flatten = encVs ms2 := by
      have h1 : (encVs (splitStream ms (buf ++ c)).1 ++ (splitStream ms (buf ++ c)).2) ++
          cs.flatten = encVs (splitStream ms (buf ++ c)).1 ++ encVs ms2 := by
        rw [henc, hjoin1, hmseq]
      rw [List.append_assoc] at h1
      exact (List.append_right_inj _).mp h1
    have hstuck2 : drain (splitStream ms (buf ++ c)).2 =
        ([], (splitStream ms (buf ++ c)).2) := by
      rcases hleft with h | ⟨m, ms3, hms2, hpre, hne⟩
      · rw [h]; exact drain_nil
      · have hwm : wfV m = true := by
          have hw4 := hw2
          rw [hms2] at hw4
          simp [wfVs] at hw4
          exact hw4.1
        exact drain_stuck_strict hwm hpre hne
    rw [ih ms2 (acc ++ (splitStream ms (buf ++ c)).1) (splitStream ms (buf ++ c)).2
      hw2 hjoin2 hstuck2]
    rw [List.append_assoc, ← hsplit]

/-- C8: for every sequence of well-formed messages and every split of its
encoded byte concatenation into feed chunks, feeding the chunks in order
yields the same ordered message sequence as feeding the whole concatenation
at once, with no bytes left buffered; partial trailing bytes are carried in
the unpacker buffer between feeds. -/
theorem c8_streaming (ms : List Value) (chunks : List (List Nat))
    (hwf : wfVs ms = true) (hjoin : chunks.flatten = encVs ms) :
    feedAll chunks = (ms, []) ∧ feedAll chunks = feedAll [encVs ms] := by
  have h1 : feedAll chunks = (ms, []) := by
    have h := feed_inv chunks ms [] [] hwf (by simpa using hjoin) drain_nil
    simpa [feedAll] using h
  have h2 : feedAll [encVs ms] = (ms, []) := by
    have h := feed_inv [encVs ms] ms [] [] hwf (by simp) drain_nil
    simpa [feedAll] using h
  exact ⟨h1, h1.trans h2.symm⟩

/-- Witness for C8: three messages split into four chunks that cut two
encodings mid-message. -/
theorem c8_streaming_witness :
    (wfVs msC8 = true ∧ List.flatten chunksC8 = encVs msC8) ∧
    feedAll chunksC8 = (msC8, []) ∧ feedAll chunksC8 = feedAll [encVs msC8] :=
  ⟨⟨by decide, by decide⟩, c8_streaming msC8 chunksC8 (by decide) (by decide)⟩

theorem classify_malformed {v : Value} (h : malformedShape v) : classify v = none := by
  obtain ⟨t, rest, rfl, hcase⟩ := h
  rcases hcase with ⟨ht, hlen⟩ | ⟨ht, hlen⟩ | htag
  · subst ht
    rcases rest with _ | ⟨a, _ | ⟨b, _ | ⟨c, _ | ⟨d, r⟩⟩⟩⟩ <;>
      simp_all [classify, TYPE_REQUEST, TYPE_NOTIFICATION]
  · subst ht
    rcases rest with _ | ⟨a, _ | ⟨b, _ | ⟨c, _ | ⟨d, r⟩⟩⟩⟩ <;>
      simp_all [classify, TYPE_REQUEST, TYPE_NOTIFICATION]
  · cases t with
    | int n =>
      have h2 := htag n rfl
      simp [classify, h2.1, h2.2]
    | nil => simp [classify]
    | bool b => simp [classify]
    | str s => simp [classify]
    | arr vs => simp [classify]
    | map kvs => simp [classify]

theorem handlerLoop_abort (pre : List Value) (bad : Value) (post : List Value)
    (hpre : ∀ v ∈ pre, (classify v).isSome = true) (hbad : classify bad = none) :
    handlerLoop (pre ++ bad :: post) = (pre.filterMap classify, true) := by
  induction pre with
  | nil => simp [handlerLoop, hbad]
  | cons v pre ih =>
    have hv : (classify v).isSome = true := hpre v (by simp)
    obtain ⟨m, hm⟩ := Option.isSome_iff_exists.mp hv
    have ih2 := ih fun w hw => hpre w (by simp [hw])
    simp [handlerLoop, hm, ih2, List.filterMap_cons]

/-- C1: the claim that every dispatched Request gets exactly one Response with
a matching id fails on the code.  Evaluation at the failing input: a Request
(id 1) whose handler returns a coroutine that raises when awaited leaves the
coroutine object in `result`, `msgpack.packb` raises `TypeError` outside the
try block, the dispatch task dies and zero Responses are written. -/
theorem c1_coro_raise_no_response :
    process (mkServer app9) exExtra (.request (.int 1) (.str [98, 97, 100]) .nil) =
      .error .typeError ∧
    taskWrites (process (mkServer app9) exExtra
      (.request (.int 1) (.str [98, 97, 100]) .nil)) = [] :=
  ⟨rfl, rfl⟩

/-- C2: the claim that any error raised while dispatching a Request — including
one raised while awaiting a suspended handler — is converted into a Response
with a stringified `[errorKind, errorMessage]` pair fails on the code.
Evaluation at the failing input: for a Request (id 7) whose handler's
coroutine raises on await, the dispatch unit itself raises `TypeError` during
`msgpack.packb` and no Response is written. -/
theorem c2_error_response_missing :
    process (mkServer app9) exExtra (.request (.int 7) (.str [98, 97, 100]) .nil) =
      .error .typeError :=
  rfl

/-- C3: dispatching a Request whose method is neither a registered application
operation (registry lookup misses) nor a known control command (no
`_ctrl_cmd_` attribute after the NUL sentinel) yields exactly one Response
with non-null error and null result, and the dispatch unit completes normally
(`Except.ok`), leaving the connection and sibling dispatch units intact. -/
theorem c3_unknown_method (S : Server) (extra : List Nat → Value) (mid : Value)
    (mb : List Nat) (params : Value)
    (h : (mb.head? ≠ some 0 ∧ dictGet S.appFuncs mb = none) ∨
         (mb.head? = some 0 ∧ mb.drop 1 ≠ bReflection)) :
    ∃ e : PyErr, process S extra (.request mid (.str mb) params) =
        .ok [encV (.arr [.int TYPE_RESPONSE, mid, errPair e, .nil])] ∧
      errPair e ≠ Value.nil := by
  rcases h with ⟨h1, h2⟩ | ⟨h1, h2⟩
  · refine ⟨.keyError, ?_, by simp [errPair]⟩
    simp [process, questOutcome, executeQuest, getExecFunc, h1, h2]
  · refine ⟨.attributeError, ?_, by simp [errPair]⟩
    have h3 : mb.tail ≠ bReflection := by simpa [List.drop_one] using h2
    simp [process, questOutcome, executeQuest, getExecFunc, getControlCommand, h1, h3]

/-- Witness for C3: the concrete unregistered method "nope" on a server with an
empty registry. -/
theorem c3_unknown_method_witness :
    ((([110, 111, 112, 101] : List Nat).head? ≠ some 0 ∧
        dictGet (mkServer []).appFuncs [110, 111, 112, 101] = none) ∨
      (([110, 111, 112, 101] : List Nat).head? = some 0 ∧
        ([110, 111, 112, 101] : List Nat).drop 1 ≠ bReflection)) ∧
    ∃ e : PyErr, process (mkServer []) exExtra
        (.request (.int 3) (.str [110, 111, 112, 101]) .nil) =
      .ok [encV (.arr [.int TYPE_RESPONSE, .int 3, errPair e, .nil])] ∧
      errPair e ≠ Value.nil :=
  ⟨Or.inl ⟨by decide, rfl⟩, c3_unknown_method _ _ _ _ _ (Or.inl ⟨by decide, rfl⟩)⟩

/-- C4: processing a decoded Notification writes nothing back on the
connection, for every server, ambient accessor, method and params — hence
regardless of whether the invoked handler succeeds or raises. -/
theorem c4_notification_silent (S : Server) (extra : List Nat → Value)
    (method params : Value) :
    process S extra (.notification method params) = .ok [] := rfl

/-- C5 counterexample: for the application exposing `f(ctx, a)`, the registry
records `needsContext = true`, yet the reflection value lists the descriptor
of the context parameter `ctx` as well — the listed parameter shape is
`[ctx, a]`, not `[a]`, so the claim that the context parameter is excluded is
false at this input. -/
theorem c5_ctx_listed_cex :
    (dictGet (mkServer app5).appFuncs [102]).map (fun fd => fd.with_context) = some true ∧
    reflectionValue (mkServer app5) =
      .map [(.str bMethods, .map [(.str [102], .arr [.str bCtx, .str [97]])])] ∧
    Value.arr [.str bCtx, .str [97]] ≠ Value.arr [.str [97]] := by
  refine ⟨rfl, rfl, ?_⟩
  intro h
  simp at h

/-- C5 amended: the reflection control command returns `{methods: m}` where `m`
maps every registered operation name to the ordered descriptors of its
complete declared parameter list (bare name without default, `{name, default}`
with one); the context parameter of a `needsContext` handler is included, not
excluded. -/
theorem c5_reflection_full_params (S : Server) (extra : List Nat → Value) (mid : Value) :
    process S extra (.request mid (.str (0 :: bReflection)) Value.nil) =
      .ok [encV (.arr [.int TYPE_RESPONSE, mid, Value.nil,
        specReflectionValue S.appFuncs])] := rfl

/-- C6: for a keyed params mapping dispatched to a `needsContext` handler, the
keys that both start and end with a double underscore form the context
subset, every other key is passed as a keyed argument, and the injected
accessor returns the context-subset value for a supplied key, falling back to
the connection's ambient metadata accessor otherwise. -/
theorem c6_context_partition (S : Server) (extra : List Nat → Value)
    (mb : List Nat) (fd : FuncDef) (kvs : List (Value × Value))
    (skvs : List (List Nat × Value))
    (h0 : mb.head? ≠ some 0)
    (hfd : dictGet S.appFuncs mb = some fd)
    (hctx : fd.with_context = true)
    (hkeys : strKeys kvs = some skvs) :
    executeQuest S extra (.str mb) (.map kvs) =
      fd.func ⟨some (ctxGetter extra skvs), [], argsOf skvs⟩ ∧
    ctxOf skvs = skvs.filter (fun p => dunder p.1) ∧
    argsOf skvs = skvs.filter (fun p => !dunder p.1) ∧
    (∀ k v, dictGet (ctxOf skvs) k = some v → ctxGetter extra skvs k = v) ∧
    (∀ k, dictGet (ctxOf skvs) k = none → ctxGetter extra skvs k = extra k) := by
  refine ⟨?_, rfl, ?_, ?_, ?_⟩
  · simp [executeQuest, getExecFunc, h0, hfd, hctx, hkeys]
  · exact List.filter_congr fun a _ => (Bool.not_and _ _).symm
  · intro k v h
    simp [ctxGetter, h]
  · intro k h
    simp [ctxGetter, h]

/-- Witness for C6: handler `h(ctx, x)` invoked with params
`{b'__who__': 5, b'x': 3}`. -/
theorem c6_context_partition_witness :
    ((([104] : List Nat).head? ≠ some 0 ∧
      dictGet (mkServer app6).appFuncs [104] = some fd6 ∧
      fd6.with_context = true ∧ strKeys kvs6 = some skvs6)) ∧
    (executeQuest (mkServer app6) exExtra (.str [104]) (.map kvs6) =
        fd6.func ⟨some (ctxGetter exExtra skvs6), [], argsOf skvs6⟩ ∧
      ctxOf skvs6 = skvs6.filter (fun p => dunder p.1) ∧
      argsOf skvs6 = skvs6.filter (fun p => !dunder p.1) ∧
      (∀ k v, dictGet (ctxOf skvs6) k = some v → ctxGetter exExtra skvs6 k = v) ∧
      (∀ k, dictGet (ctxOf skvs6) k = none → ctxGetter exExtra skvs6 k = exExtra k)) :=
  ⟨⟨by decide, rfl, rfl, rfl⟩,
    c6_context_partition (mkServer app6) exExtra [104] fd6 kvs6 skvs6
      (by decide) rfl rfl rfl⟩

/-- C7: a decoded message that is well-formed at the framing level but has a
wrong arity for its tag or an unknown tag is fatal to that connection: the
loop dispatches exactly the earlier well-shaped messages, stops there and
closes the connection, while every other connection's handler result is
untouched (per-connection independence). -/
theorem c7_malformed_aborts (pre : List Value) (bad : Value) (post : List Value)
    (hpre : ∀ v ∈ pre, (classify v).isSome = true)
    (hbad : malformedShape bad) :
    handlerLoop (pre ++ bad :: post) = (pre.filterMap classify, true) ∧
    ∀ (conns : List (List Value)) (j : Nat),
      (conns.map handlerLoop)[j]? = (conns[j]?).map handlerLoop := by
  constructor
  · exact handlerLoop_abort pre bad post hpre (classify_malformed hbad)
  · intro conns j
    simp [List.getElem?_map]

/-- Witness for C7: a valid Request followed by a Request-tagged array of
arity 2. -/
theorem c7_malformed_aborts_witness :
    ((∀ v ∈ [Value.arr [.int 0, .int 9, .str [110], .nil]], (classify v).isSome = true) ∧
      malformedShape (.arr [.int 0, .int 1])) ∧
    (handlerLoop ([Value.arr [.int 0, .int 9, .str [110], .nil]] ++
        (Value.arr [.int 0, .int 1]) :: [Value.nil]) =
      ([Value.arr [.int 0, .int 9, .str [110], .nil]].filterMap classify, true) ∧
    ∀ (conns : List (List Value)) (j : Nat),
      (conns.map handlerLoop)[j]? = (conns[j]?).map handlerLoop) :=
  ⟨⟨by decide, ⟨.int 0, [.int 1], rfl, Or.inl ⟨rfl, by decide⟩⟩⟩,
    c7_malformed_aborts _ _ _ (by decide) ⟨.int 0, [.int 1], rfl, Or.inl ⟨rfl, by decide⟩⟩⟩

/-- C9: the claim that every one of N concurrent Requests on a connection
eventually receives a matching Response fails on the code.  Evaluation at the
failing input: two Requests (ids 1 and 2) are dispatched as independent
tasks; under both possible completion orders only id 2's Response is written —
id 1's task dies in `msgpack.packb` because its handler's coroutine raised on
await. -/
theorem c9_lost_response_any_schedule :
    dispatchAll (mkServer app9) exExtra msgs9 [0, 1] =
      [encV (.arr [.int TYPE_RESPONSE, .int 2, .nil, .str [112, 111, 110, 103]])] ∧
    dispatchAll (mkServer app9) exExtra msgs9 [1, 0] =
      [encV (.arr [.int TYPE_RESPONSE, .int 2, .nil, .str [112, 111, 110, 103]])] :=
  ⟨rfl, rfl⟩

/-- C10: the server-side handler dispatches only Request- and
Notification-tagged messages; an inbound message with the Response tag (or any
other tag) fails classification and aborts that connection, so the server
role never consumes or correlates inbound Response messages. -/
theorem c10_response_tag_aborts (pre : List Value) (t : Value) (rest post : List Value)
    (hpre : ∀ v ∈ pre, (classify v).isSome = true)
    (ht : ∀ n : Nat, t = .int n → n ≠ TYPE_REQUEST ∧ n ≠ TYPE_NOTIFICATION) :
    classify (.arr (.int TYPE_RESPONSE :: rest)) = none ∧
    handlerLoop (pre ++ (.arr (t :: rest)) :: post) = (pre.filterMap classify, true) := by
  constructor
  · simp [classify, TYPE_RESPONSE, TYPE_REQUEST, TYPE_NOTIFICATION]
  · exact handlerLoop_abort _ _ _ hpre
      (classify_malformed ⟨t, rest, rfl, Or.inr (Or.inr ht)⟩)

/-- Witness for C10: an empty prefix followed by a Response-tagged array. -/
theorem c10_response_tag_aborts_witness :
    ((∀ v ∈ ([] : List Value), (classify v).isSome = true) ∧
      (∀ n : Nat, Value.int 1 = .int n → n ≠ TYPE_REQUEST ∧ n ≠ TYPE_NOTIFICATION)) ∧
    (classify (.arr (.int TYPE_RESPONSE :: [.int 5, .nil, .nil])) = none ∧
    handlerLoop (([] : List Value) ++
        (Value.arr (Value.int 1 :: [.int 5, .nil, .nil])) :: ([] : List Value)) =
      (([] : List Value).filterMap classify, true)) :=
  ⟨⟨by simp, fun n h => by cases h; exact ⟨by decide, by decide⟩⟩,
    c10_response_tag_aborts [] (.int 1) [.int 5, .nil, .nil] [] (by simp)
      (fun n h => by cases h; exact ⟨by decide, by decide⟩)⟩
